import Mathlib

/-!
Shallow embedding of the sliding-tile (15-puzzle) game core from
src/components/puzzle-game.tsx, together with proofs of the specification
claims about it.

The embedding follows the source closely:
  - `Position`, `Tile` mirror the TypeScript types;
  - `isSolvable`, `shuffleArray`, `initializeValues`/`mkBoard`,
    `hasWon`, `isAdjacent`, `applyMove` mirror the functions
    `isSolvable`, `shuffleArray`, `initializeGame`, the win-check effect,
    the adjacency test and the body of `handleTileClick`;
  - `GameState` with `clickStep`, `checkWin`, `resetStep` and the
    `Reachable` predicate model the React session state
    (tiles, isWon, moveCount, isRunning) and its transitions.

Randomness is modelled as an explicit oracle: the value
`Math.floor(Math.random() * (i + 1))` drawn at loop index `i` is an
arbitrary element of `Fin (i + 1)` (the code always produces a value in
`[0, i]`), and the retrying shuffle loop of `initializeGame` consumes one
oracle per iteration and is fuel-bounded by the length of the oracle list
(the JS loop has no bound; every terminating run of it is a run of
`initializeValues` with enough oracles).
-/

/-- Grid width, `GRID_SIZE` in the source. -/
def GRID_SIZE : Nat := 4

/-- The tile value denoting the empty cell, `EMPTY_TILE_VALUE` in the source. -/
def EMPTY_TILE_VALUE : Nat := 0

/-- A grid position, mirroring `type Position = { row; col }`. -/
structure Position where
  row : Nat
  col : Nat
deriving DecidableEq

/-- A tile, mirroring `type Tile = { id; value; position }`. -/
structure Tile where
  id : Nat
  value : Nat
  position : Position
deriving DecidableEq

instance : Inhabited Tile := ⟨⟨0, 0, ⟨0, 0⟩⟩⟩

/-- Inversion count of a list, as computed by the nested loops in
`isSolvable` (lines 101-107): for each index `i`, count the later indices
`j` with `values[i] > values[j]`. -/
def countInv : List Nat → Nat
  | [] => 0
  | x :: xs => (xs.filter (fun y => decide (y < x))).length + countInv xs

/-- The solvability oracle, `isSolvable` (lines 96-120): inversion parity of
the sequence with the empty value removed, combined with the parity of the
empty cell's row counted from the bottom. -/
def isSolvable (values : List Nat) : Bool :=
  let valuesWithoutEmpty := values.filter (fun val => decide (val ≠ EMPTY_TILE_VALUE))
  let inversions := countInv valuesWithoutEmpty
  let emptyIndex := values.indexOf EMPTY_TILE_VALUE
  let emptyRow := emptyIndex / GRID_SIZE
  let emptyRowFromBottom := GRID_SIZE - emptyRow
  (emptyRowFromBottom % 2 == 0 && inversions % 2 == 1) ||
    (emptyRowFromBottom % 2 == 1 && inversions % 2 == 0)

/-- One swap of the Fisher-Yates loop body: the destructuring assignment
`[array[i], array[j]] = [array[j], array[i]]` reads both entries of the
original list and then writes both. -/
def swapAt (l : List Nat) (i j : Nat) : List Nat :=
  (l.set i (l.getD j 0)).set j (l.getD i 0)

/-- The Fisher-Yates loop of `shuffleArray` (lines 123-128), counting the
loop variable down: the argument `i` is the next loop index to run, so
`shuffleLoop r i l` runs the body for indices `i, i-1, …, 1`.
`r i` is the random draw `Math.floor(Math.random() * (i + 1))`. -/
def shuffleLoop (r : (i : Nat) → Fin (i + 1)) : Nat → List Nat → List Nat
  | 0, l => l
  | i + 1, l => shuffleLoop r i (swapAt l (i + 1) (r (i + 1)).val)

/-- `shuffleArray` (lines 123-128): run the loop from index `length - 1`
down to `1`. -/
def shuffleArray (r : (i : Nat) → Fin (i + 1)) (l : List Nat) : List Nat :=
  shuffleLoop r (l.length - 1) l

/-- The retrying shuffle of `initializeGame` (lines 74-76):
`do { shuffleArray(values) } while (!isSolvable(values))`, consuming one
random oracle per iteration; `none` when the oracle list runs out before a
solvable permutation appears. -/
def initializeValues (rs : List ((i : Nat) → Fin (i + 1))) (vs : List Nat) :
    Option (List Nat) :=
  match rs with
  | [] => none
  | r :: rest =>
    let vs' := shuffleArray r vs
    if isSolvable vs' then some vs' else initializeValues rest vs'

/-- The position of linear index `i`, `row = i / GRID_SIZE`,
`col = i % GRID_SIZE` (lines 79-80). -/
def cellOf (i : Nat) : Position := ⟨i / GRID_SIZE, i % GRID_SIZE⟩

/-- Board materialization of `initializeGame` (lines 78-86): tile `i` gets
id `i`, value `values[i]`, and position `(i / GRID_SIZE, i % GRID_SIZE)`. -/
def mkBoard (values : List Nat) : List Tile :=
  (List.range values.length).map (fun i =>
    { id := i, value := values.getD i 0, position := cellOf i })

/-- The win computation of the win-check effect (lines 53-60):
every tile sits at its canonical position. -/
def hasWon (tiles : List Tile) : Bool :=
  tiles.all (fun tile =>
    if tile.value == EMPTY_TILE_VALUE then
      tile.position.row == GRID_SIZE - 1 && tile.position.col == GRID_SIZE - 1
    else
      tile.position.row == (tile.value - 1) / GRID_SIZE &&
        tile.position.col == (tile.value - 1) % GRID_SIZE)

/-- The adjacency test of `handleTileClick` (lines 141-142). Coordinate
differences are taken in `Int`, as JavaScript subtraction of numbers. -/
def isAdjacent (p q : Position) : Bool :=
  (p.row == q.row && ((p.col : Int) - (q.col : Int)).natAbs == 1) ||
    (p.col == q.col && ((p.row : Int) - (q.row : Int)).natAbs == 1)

/-- The per-tile update applied by the `map` of lines 147-155: the clicked
value moves to the empty cell's position, the empty value moves to the
clicked position, all other tiles are returned unchanged. -/
def moveMap (targetValue : Nat) (emptyPos clickedPos : Position) (tile : Tile) : Tile :=
  if tile.value == targetValue then { tile with position := emptyPos }
  else if tile.value == EMPTY_TILE_VALUE then { tile with position := clickedPos }
  else tile

/-- The board transformation of `handleTileClick` (lines 131-161), keyed by
the clicked tile's value: look up the clicked tile and the empty tile,
test adjacency, and on success swap the two positions via the `map` of
lines 146-156. Returns the new tile list and whether a move happened. -/
def applyMove (tiles : List Tile) (targetValue : Nat) : List Tile × Bool :=
  match tiles.find? (fun t => t.value == targetValue),
      tiles.find? (fun t => t.value == EMPTY_TILE_VALUE) with
  | some clicked, some emptyTile =>
    if isAdjacent clicked.position emptyTile.position then
      (tiles.map (moveMap targetValue emptyTile.position clicked.position), true)
    else (tiles, false)
  | _, _ => (tiles, false)

/-- The session state held in React state hooks (lines 24-28); the wall
clock value is irrelevant to the claims and omitted. -/
structure GameState where
  tiles : List Tile
  isWon : Bool
  moveCount : Nat
  isRunning : Bool
deriving DecidableEq

/-- The win-check effect (lines 50-66): if the board is fully placed, no
win is recorded yet, and at least one move was made, set `isWon` and stop
the clock. -/
def checkWin (s : GameState) : GameState :=
  if s.tiles.length == 0 then s
  else if hasWon s.tiles && !s.isWon && decide (0 < s.moveCount) then
    { s with isWon := true, isRunning := false }
  else s

/-- A full click transition: `handleTileClick` (lines 131-161) followed by
the win-check effect on the updated state. -/
def clickStep (s : GameState) (targetValue : Nat) : GameState :=
  if s.isWon then s
  else
    match applyMove s.tiles targetValue with
    | (ts, true) =>
      checkWin { s with tiles := ts, moveCount := s.moveCount + 1, isRunning := true }
    | (_, false) => s

/-- The reset-timer button handler (lines 192-197). -/
def resetStep (s : GameState) : GameState :=
  { s with moveCount := 0, isRunning := true, isWon := false }

/-- The session state right after `initializeGame` succeeds
(lines 88-92). -/
def mkState (values : List Nat) : GameState :=
  { tiles := mkBoard values, isWon := false, moveCount := 0, isRunning := true }

/-- Session states reachable between `initializeGame` calls: the freshly
initialized state, closed under clicks and timer resets. -/
inductive Reachable : GameState → Prop where
  | init : ∀ rs out, initializeValues rs (List.range (GRID_SIZE * GRID_SIZE)) = some out →
      Reachable (mkState out)
  | move : ∀ s v, Reachable s → Reachable (clickStep s v)
  | reset : ∀ s, Reachable s → Reachable (resetStep s)

/-- The board's row-major linear value sequence: for each linear index, the
value of the tile currently at that cell (`0` as a default for a cell no
tile occupies, which the board invariant rules out). -/
def linSeq (tiles : List Tile) : List Nat :=
  (List.range (GRID_SIZE * GRID_SIZE)).map (fun i =>
    ((tiles.find? (fun t =>
      t.position.row == i / GRID_SIZE && t.position.col == i % GRID_SIZE)).map
        Tile.value).getD 0)

/-- The Board invariants of the spec's data model: tile values are exactly
`{0, …, N²−1}` and tile positions are exactly the `N×N` grid, each once. -/
def BoardInv (tiles : List Tile) : Prop :=
  List.Perm (tiles.map Tile.value) (List.range (GRID_SIZE * GRID_SIZE)) ∧
    List.Perm (tiles.map Tile.position) ((List.range (GRID_SIZE * GRID_SIZE)).map cellOf)

/-- Spec-level adjacency: same row and columns differing by one, or same
column and rows differing by one. -/
def SpecAdjacent (p q : Position) : Prop :=
  (p.row = q.row ∧ ((p.col : Int) - (q.col : Int)).natAbs = 1) ∨
    (p.col = q.col ∧ ((p.row : Int) - (q.row : Int)).natAbs = 1)

/-- Spec-level canonical placement of a single tile: value `0` belongs at
`(N−1, N−1)`, value `v ≠ 0` at `((v−1)/N, (v−1) mod N)`. -/
def Canonical (t : Tile) : Prop :=
  (t.value = 0 → t.position = ⟨GRID_SIZE - 1, GRID_SIZE - 1⟩) ∧
    (t.value ≠ 0 →
      t.position = ⟨(t.value - 1) / GRID_SIZE, (t.value - 1) % GRID_SIZE⟩)

/-- Spec-level inversion count: the number of index pairs `(i, j)` with
`i < j` and `l[i] > l[j]`, written as a sum of indicators over all pairs. -/
def specInversions (l : List Nat) : Nat :=
  ∑ i ∈ Finset.range l.length, ∑ j ∈ Finset.range l.length,
    if i < j ∧ l.getD j 0 < l.getD i 0 then 1 else 0

theorem find?_agree {α : Type} (p q : α → Bool) :
    ∀ (l : List α), (∀ a ∈ l, p a = q a) → l.find? p = l.find? q := by
  intro l
  induction l with
  | nil => intro _; rfl
  | cons x xs ih =>
    intro h
    have hx : p x = q x := h x (List.mem_cons_self x xs)
    simp only [List.find?_cons]
    rw [hx]
    cases hq : q x with
    | true => rfl
    | false => exact ih (fun a ha => h a (List.mem_cons_of_mem x ha))

theorem find?_eq_some_of_unique {α : Type} (p : α → Bool) (x : α) :
    ∀ (l : List α), x ∈ l → p x = true → (∀ a ∈ l, a ≠ x → p a = false) →
      l.find? p = some x := by
  intro l
  induction l with
  | nil => intro h; exact absurd h (List.not_mem_nil x)
  | cons y ys ih =>
    intro hx hpx huniq
    simp only [List.find?_cons]
    cases hy : p y with
    | true =>
      have : y = x := by
        by_contra hne
        rw [huniq y (List.mem_cons_self y ys) hne] at hy
        exact Bool.false_ne_true hy
      rw [this]
    | false =>
      have hxy : x ≠ y := by
        intro h
        rw [h, hy] at hpx
        exact Bool.false_ne_true hpx
      have hxs : x ∈ ys := by
        rcases List.mem_cons.mp hx with h | h
        · exact absurd h hxy
        · exact h
      exact ih hxs hpx (fun a ha => huniq a (List.mem_cons_of_mem y ha))

theorem tile_inj {tiles : List Tile} {f : Tile → β} (hnd : (tiles.map f).Nodup)
    {a b : Tile} (ha : a ∈ tiles) (hb : b ∈ tiles) (hab : f a = f b) : a = b :=
  List.inj_on_of_nodup_map hnd ha hb hab

theorem find?_value {tiles : List Tile} (hnd : (tiles.map Tile.value).Nodup)
    {t : Tile} (ht : t ∈ tiles) {v : Nat} (htv : t.value = v) :
    tiles.find? (fun a => a.value == v) = some t := by
  apply find?_eq_some_of_unique _ _ _ ht
  · simp [htv]
  · intro a ha hne
    simp only [beq_eq_false_iff_ne, ne_eq]
    intro hav
    exact hne (tile_inj hnd ha ht (hav.trans htv.symm))

theorem swapAt_length (l : List Nat) (i j : Nat) : (swapAt l i j).length = l.length := by
  simp [swapAt]

theorem cons_getD_set_perm (x : Nat) :
    ∀ (t : List Nat) (k : Nat), k < t.length →
      List.Perm (t.getD k 0 :: t.set k x) (x :: t) := by
  intro t
  induction t with
  | nil => intro k hk; exact absurd hk (by simp)
  | cons y tq ih =>
    intro k hk
    cases k with
    | zero => exact List.Perm.swap x y tq
    | succ k =>
      have hk' : k < tq.length := by simpa using hk
      calc
        List.Perm (tq.getD k 0 :: y :: tq.set k x) (y :: tq.getD k 0 :: tq.set k x) :=
          List.Perm.swap y (tq.getD k 0) _
        List.Perm _ (y :: x :: tq) := List.Perm.cons y (ih k hk')
        List.Perm _ (x :: y :: tq) := List.Perm.swap x y tq

theorem swapAt_perm :
    ∀ (l : List Nat) (i j : Nat), i < l.length → j < l.length →
      List.Perm (swapAt l i j) l := by
  intro l
  induction l with
  | nil => intro i j hi _; exact absurd hi (by simp)
  | cons x t ih =>
    intro i j hi hj
    cases i with
    | zero =>
      cases j with
      | zero => simp [swapAt]
      | succ k =>
        have hk : k < t.length := by simpa using hj
        simpa [swapAt] using cons_getD_set_perm x t k hk
    | succ m =>
      cases j with
      | zero =>
        have hm : m < t.length := by simpa using hi
        simpa [swapAt] using cons_getD_set_perm x t m hm
      | succ k =>
        have hm : m < t.length := by simpa using hi
        have hk : k < t.length := by simpa using hj
        have : swapAt (x :: t) (m + 1) (k + 1) = x :: swapAt t m k := by
          simp [swapAt]
        rw [this]
        exact List.Perm.cons x (ih m k hm hk)

theorem shuffleLoop_perm (r : (i : Nat) → Fin (i + 1)) :
    ∀ (i : Nat) (l : List Nat), i < l.length → List.Perm (shuffleLoop r i l) l := by
  intro i
  induction i with
  | zero => intro l _; exact List.Perm.refl l
  | succ n ih =>
    intro l hl
    have hj : ((r (n + 1)).val : Nat) < l.length :=
      lt_of_lt_of_le (r (n + 1)).isLt hl
    have hswap := swapAt_perm l (n + 1) (r (n + 1)).val hl hj
    have hlen : n < (swapAt l (n + 1) (r (n + 1)).val).length := by
      rw [swapAt_length]; omega
    exact (ih _ hlen).trans hswap

theorem shuffleArray_perm (r : (i : Nat) → Fin (i + 1)) (l : List Nat) :
    List.Perm (shuffleArray r l) l := by
  cases l with
  | nil => exact List.Perm.refl _
  | cons x t =>
    have h : (x :: t).length - 1 < (x :: t).length := by simp
    exact shuffleLoop_perm r _ _ h

/-- Claim C9: `shuffleArray` is a Fisher-Yates shuffle — the loop runs from
the last index down to `1`, at index `i` the random draw is an arbitrary
element of `[0, i]` (modelled by the oracle `r i : Fin (i + 1)`), and the
two entries are swapped; for every input list and every outcome of the
oracle the result is a rearrangement (permutation) of the input. -/
theorem C9_shuffleArray_perm (r : (i : Nat) → Fin (i + 1)) (l : List Nat) :
    List.Perm (shuffleArray r l) l :=
  shuffleArray_perm r l

theorem initializeValues_solvable :
    ∀ (rs : List ((i : Nat) → Fin (i + 1))) (vs out : List Nat),
      initializeValues rs vs = some out → isSolvable out = true := by
  intro rs
  induction rs with
  | nil => intro vs out h; exact absurd h (by simp [initializeValues])
  | cons r rest ih =>
    intro vs out h
    simp only [initializeValues] at h
    by_cases hs : isSolvable (shuffleArray r vs) = true
    · rw [if_pos hs] at h
      obtain rfl : shuffleArray r vs = out := Option.some_inj.mp h
      exact hs
    · rw [if_neg hs] at h
      exact ih _ _ h

theorem initializeValues_perm :
    ∀ (rs : List ((i : Nat) → Fin (i + 1))) (vs out : List Nat),
      initializeValues rs vs = some out → List.Perm out vs := by
  intro rs
  induction rs with
  | nil => intro vs out h; exact absurd h (by simp [initializeValues])
  | cons r rest ih =>
    intro vs out h
    simp only [initializeValues] at h
    by_cases hs : isSolvable (shuffleArray r vs) = true
    · rw [if_pos hs] at h
      obtain rfl : shuffleArray r vs = out := Option.some_inj.mp h
      exact shuffleArray_perm r vs
    · rw [if_neg hs] at h
      exact (ih _ _ h).trans (shuffleArray_perm r vs)

theorem cellOf_inj {i j : Nat} (hi : i < 16) (hj : j < 16) (h : cellOf i = cellOf j) :
    i = j := by
  simp only [cellOf, GRID_SIZE, Position.mk.injEq] at h
  omega

theorem mkBoard_find? {values : List Nat} (hlen : values.length = 16) {i : Nat}
    (hi : i < 16) :
    (mkBoard values).find? (fun t =>
        t.position.row == i / GRID_SIZE && t.position.col == i % GRID_SIZE) =
      some { id := i, value := values.getD i 0, position := cellOf i } := by
  apply find?_eq_some_of_unique
  · exact List.mem_map.mpr ⟨i, List.mem_range.mpr (by omega), rfl⟩
  · simp [cellOf]
  · intro a ha hne
    rcases List.mem_map.mp ha with ⟨j, hj, rfl⟩
    rw [List.mem_range, hlen] at hj
    have hji : j ≠ i := by
      intro h
      exact hne (by rw [h])
    simp only [cellOf, GRID_SIZE, Bool.and_eq_false_iff, beq_eq_false_iff_ne, ne_eq]
    by_contra hcon
    push_neg at hcon
    omega

theorem linSeq_length (tiles : List Tile) : (linSeq tiles).length = 16 := by
  simp [linSeq, GRID_SIZE]

theorem linSeq_mkBoard {values : List Nat} (hlen : values.length = 16) :
    linSeq (mkBoard values) = values := by
  apply List.ext_getElem
  · rw [linSeq_length, hlen]
  · intro n h1 h2
    rw [linSeq_length] at h1
    have : (GRID_SIZE * GRID_SIZE) = 16 := by decide
    simp only [linSeq, this, List.getElem_map, List.getElem_range]
    rw [mkBoard_find? hlen h1]
    simp [List.getD_eq_getElem _ _ h2, List.getElem?_eq_getElem h2]

/-- Claim C2: every board returned by a terminating run of the `initializeGame`
shuffle loop is solvable — whatever the random oracle outcomes, if the loop
returns, `isSolvable` holds of the board's row-major linear value sequence. -/
theorem C2_newGame_solvable (rs : List ((i : Nat) → Fin (i + 1))) (out : List Nat)
    (h : initializeValues rs (List.range (GRID_SIZE * GRID_SIZE)) = some out) :
    isSolvable (linSeq (mkBoard out)) = true := by
  have hlen : out.length = 16 := by
    have := (initializeValues_perm rs _ out h).length_eq
    simpa [GRID_SIZE] using this
  rw [linSeq_mkBoard hlen]
  exact initializeValues_solvable rs _ out h

theorem countP_eq_sum_range (p : Nat → Bool) :
    ∀ (xs : List Nat),
      xs.countP p = ∑ j ∈ Finset.range xs.length, if p (xs.getD j 0) = true then 1 else 0 := by
  intro xs
  induction xs with
  | nil => simp
  | cons x t ih =>
    rw [List.countP_cons, List.length_cons, Finset.sum_range_succ']
    simp only [List.getD_cons_succ, List.getD_cons_zero]
    rw [← ih]

theorem countInv_cons (x : Nat) (t : List Nat) :
    countInv (x :: t) = t.countP (fun y => decide (y < x)) + countInv t := by
  simp [countInv, List.countP_eq_length_filter]

theorem specInversions_cons (x : Nat) (t : List Nat) :
    specInversions (x :: t) = t.countP (fun y => decide (y < x)) + specInversions t := by
  unfold specInversions
  rw [List.length_cons, Finset.sum_range_succ']
  have h2 :
      (∑ j ∈ Finset.range (t.length + 1),
        if 0 < j ∧ (x :: t).getD j 0 < (x :: t).getD 0 0 then 1 else 0) =
        t.countP (fun y => decide (y < x)) := by
    rw [Finset.sum_range_succ', countP_eq_sum_range]
    simp only [List.getD_cons_succ, List.getD_cons_zero, lt_self_iff_false, false_and,
      if_false, add_zero, Nat.succ_pos, true_and, decide_eq_true_eq]
  have h1 :
      (∑ i ∈ Finset.range t.length,
        ∑ j ∈ Finset.range (t.length + 1),
          if i + 1 < j ∧ (x :: t).getD j 0 < (x :: t).getD (i + 1) 0 then 1 else 0) =
        ∑ i ∈ Finset.range t.length, ∑ j ∈ Finset.range t.length,
          if i < j ∧ t.getD j 0 < t.getD i 0 then 1 else 0 := by
    apply Finset.sum_congr rfl
    intro i _
    rw [Finset.sum_range_succ']
    simp only [List.getD_cons_succ, List.getD_cons_zero, Nat.not_lt_zero, false_and,
      if_false, add_zero, Nat.add_lt_add_iff_right]
  rw [h1, h2, add_comm]

theorem countInv_eq_specInversions : ∀ (l : List Nat), countInv l = specInversions l := by
  intro l
  induction l with
  | nil => simp [countInv, specInversions]
  | cons x t ih => rw [countInv_cons, specInversions_cons, ih]

/-- Claim C1: for every arrangement of the values `0, …, 15` (a permutation of
`List.range 16`), `isSolvable` accepts exactly when the parity rule of the
spec holds: with `inversions` the number of out-of-order index pairs of the
sequence with `0` removed and `emptyRowFromBottom = 4 - (index of 0) / 4`,
either `emptyRowFromBottom` is even and `inversions` odd, or
`emptyRowFromBottom` odd and `inversions` even. -/
theorem C1_isSolvable_iff (values : List Nat)
    (h : List.Perm values (List.range (GRID_SIZE * GRID_SIZE))) :
    isSolvable values = true ↔
      ((GRID_SIZE - values.indexOf 0 / GRID_SIZE) % 2 = 0 ∧
        specInversions (values.filter (fun val => decide (val ≠ 0))) % 2 = 1) ∨
      ((GRID_SIZE - values.indexOf 0 / GRID_SIZE) % 2 = 1 ∧
        specInversions (values.filter (fun val => decide (val ≠ 0))) % 2 = 0) := by
  have h1 := countInv_eq_specInversions (values.filter (fun val => decide (val ≠ 0)))
  simp only [isSolvable, EMPTY_TILE_VALUE, Bool.or_eq_true, Bool.and_eq_true, beq_iff_eq]
  rw [h1]

theorem position_eq_iff (p : Position) (r c : Nat) :
    p = ⟨r, c⟩ ↔ p.row = r ∧ p.col = c := by
  cases p
  simp

theorem hasWon_iff (tiles : List Tile) :
    hasWon tiles = true ↔ ∀ t ∈ tiles, Canonical t := by
  unfold hasWon
  rw [List.all_eq_true]
  apply forall_congr'
  intro t
  apply imp_congr_right
  intro _
  by_cases hv : t.value = 0
  · simp [hv, Canonical, position_eq_iff, EMPTY_TILE_VALUE, GRID_SIZE]
  · simp [hv, Canonical, position_eq_iff, EMPTY_TILE_VALUE, GRID_SIZE]

/-- Claim C3: for every board satisfying the Board invariants, the win check
accepts exactly when every tile is canonically placed — the tile of value `0`
at `(N−1, N−1)` and every other tile of value `v` at
`((v−1)/N, (v−1) mod N)`; in particular any board with a tile out of its
canonical place is not accepted. -/
theorem C3_hasWon_iff (tiles : List Tile) (hinv : BoardInv tiles) :
    (hasWon tiles = true ↔ ∀ t ∈ tiles, Canonical t) ∧
      (∀ t ∈ tiles, ¬ Canonical t → hasWon tiles = false) := by
  refine ⟨hasWon_iff tiles, ?_⟩
  intro t ht hnc
  rw [← Bool.not_eq_true]
  intro hw
  exact hnc ((hasWon_iff tiles).mp hw t ht)

theorem isAdjacent_iff_spec (p q : Position) :
    isAdjacent p q = true ↔ SpecAdjacent p q := by
  simp [isAdjacent, SpecAdjacent]

theorem specAdjacent_irrefl (p : Position) : ¬ SpecAdjacent p p := by
  simp [SpecAdjacent]

theorem specAdjacent_symm {p q : Position} (h : SpecAdjacent p q) : SpecAdjacent q p := by
  rcases h with ⟨h1, h2⟩ | ⟨h1, h2⟩
  · exact Or.inl ⟨h1.symm, by omega⟩
  · exact Or.inr ⟨h1.symm, by omega⟩

theorem moveMap_spec (v : Nat) (pe pc : Position) (u : Tile)
    (hv0 : v ≠ EMPTY_TILE_VALUE) :
    (u.value = v → moveMap v pe pc u = { u with position := pe }) ∧
      (u.value = EMPTY_TILE_VALUE → moveMap v pe pc u = { u with position := pc }) ∧
      (u.value ≠ v → u.value ≠ EMPTY_TILE_VALUE → moveMap v pe pc u = u) := by
  refine ⟨?_, ?_, ?_⟩
  · intro h
    have hc : (u.value == v) = true := by simp [h]
    simp only [moveMap, hc, if_true]
  · intro h
    have hf : (u.value == v) = false := by
      simp only [beq_eq_false_iff_ne, ne_eq]
      rw [h]
      exact fun hh => hv0 hh.symm
    have hc : (u.value == EMPTY_TILE_VALUE) = true := by simp [h]
    simp only [moveMap, hf, Bool.false_eq_true, if_false, hc, if_true]
  · intro h1 h2
    have hf1 : (u.value == v) = false := by simp [h1]
    have hf2 : (u.value == EMPTY_TILE_VALUE) = false := by simp [h2]
    simp only [moveMap, hf1, hf2, Bool.false_eq_true, if_false]

theorem moveMap_value (v : Nat) (pe pc : Position) (u : Tile) :
    (moveMap v pe pc u).value = u.value := by
  unfold moveMap
  split_ifs <;> rfl

theorem moveMap_id_field (v : Nat) (pe pc : Position) (u : Tile) :
    (moveMap v pe pc u).id = u.id := by
  unfold moveMap
  split_ifs <;> rfl

theorem applyMove_moved {tiles : List Tile} {v : Nat} {t e : Tile}
    (hnd : (tiles.map Tile.value).Nodup) (ht : t ∈ tiles) (htv : t.value = v)
    (he : e ∈ tiles) (hev : e.value = EMPTY_TILE_VALUE)
    (hadj : SpecAdjacent t.position e.position) :
    applyMove tiles v = (tiles.map (moveMap v e.position t.position), true) := by
  have hA : isAdjacent t.position e.position = true := (isAdjacent_iff_spec _ _).mpr hadj
  simp only [applyMove, find?_value hnd ht htv, find?_value hnd he hev, hA, if_true]

theorem applyMove_not_adjacent {tiles : List Tile} {v : Nat} {t e : Tile}
    (hnd : (tiles.map Tile.value).Nodup) (ht : t ∈ tiles) (htv : t.value = v)
    (he : e ∈ tiles) (hev : e.value = EMPTY_TILE_VALUE)
    (hnadj : ¬ SpecAdjacent t.position e.position) :
    applyMove tiles v = (tiles, false) := by
  have hA : isAdjacent t.position e.position = false := by
    rw [← Bool.not_eq_true]
    exact fun h => hnadj ((isAdjacent_iff_spec _ _).mp h)
  simp only [applyMove, find?_value hnd ht htv, find?_value hnd he hev, hA,
    Bool.false_eq_true, if_false]

/-- Claim C4: the move engine treats the clicked value as adjacent to the
empty cell exactly when the two positions share a row with columns one
apart, or share a column with rows one apart; on any non-adjacent target
(diagonal, distant, or the value 0 itself, which occupies the empty cell's
own position) the click is a silent no-op: `moved = false`, the board is
returned unchanged, and the session state (including the move counter) is
unchanged. -/
theorem C4_reject (tiles : List Tile) (v : Nat) (t e : Tile)
    (hnd : (tiles.map Tile.value).Nodup) (ht : t ∈ tiles) (htv : t.value = v)
    (he : e ∈ tiles) (hev : e.value = EMPTY_TILE_VALUE)
    (hnadj : ¬ SpecAdjacent t.position e.position) :
    (isAdjacent t.position e.position = true ↔ SpecAdjacent t.position e.position) ∧
      applyMove tiles v = (tiles, false) ∧
      (∀ s : GameState, s.tiles = tiles → clickStep s v = s) := by
  refine ⟨isAdjacent_iff_spec _ _, applyMove_not_adjacent hnd ht htv he hev hnadj, ?_⟩
  intro s hs
  by_cases hw : s.isWon = true
  · simp only [clickStep, hw, if_true]
  · rw [Bool.not_eq_true] at hw
    simp only [clickStep, hw, Bool.false_eq_true, if_false, hs,
      applyMove_not_adjacent hnd ht htv he hev hnadj]

theorem checkWin_tiles (s : GameState) : (checkWin s).tiles = s.tiles := by
  unfold checkWin
  split_ifs <;> rfl

theorem checkWin_moveCount (s : GameState) : (checkWin s).moveCount = s.moveCount := by
  unfold checkWin
  split_ifs <;> rfl

theorem ne_of_adjacent {t e : Tile} (hadj : SpecAdjacent t.position e.position) :
    t ≠ e := by
  intro h
  rw [h] at hadj
  exact specAdjacent_irrefl e.position hadj

theorem target_ne_empty_value {tiles : List Tile} {v : Nat} {t e : Tile}
    (hnd : (tiles.map Tile.value).Nodup) (ht : t ∈ tiles) (htv : t.value = v)
    (he : e ∈ tiles) (hev : e.value = EMPTY_TILE_VALUE)
    (hadj : SpecAdjacent t.position e.position) : v ≠ EMPTY_TILE_VALUE := by
  intro h
  exact ne_of_adjacent hadj (tile_inj hnd ht he (by rw [htv, hev, h]))

/-- Claim C5: a click on a value adjacent to the empty cell succeeds and
swaps exactly the two tiles: the tile holding the target value takes the
empty cell's former position, the tile of value 0 takes the target's former
position, and every other tile is returned at the same list index, exactly
unchanged (same identity, value, and position); the session's move counter
is incremented by exactly one. -/
theorem C5_move_effect (s : GameState) (v : Nat) (t e : Tile)
    (hw : s.isWon = false)
    (hnd : (s.tiles.map Tile.value).Nodup)
    (ht : t ∈ s.tiles) (htv : t.value = v)
    (he : e ∈ s.tiles) (hev : e.value = EMPTY_TILE_VALUE)
    (hadj : SpecAdjacent t.position e.position) :
    (applyMove s.tiles v).2 = true ∧
      (applyMove s.tiles v).1.length = s.tiles.length ∧
      (∀ (i : Nat) (hi : i < s.tiles.length),
        ((s.tiles.get ⟨i, hi⟩).value = v →
          (applyMove s.tiles v).1.getD i default =
            { s.tiles.get ⟨i, hi⟩ with position := e.position }) ∧
        ((s.tiles.get ⟨i, hi⟩).value = EMPTY_TILE_VALUE →
          (applyMove s.tiles v).1.getD i default =
            { s.tiles.get ⟨i, hi⟩ with position := t.position }) ∧
        ((s.tiles.get ⟨i, hi⟩).value ≠ v →
          (s.tiles.get ⟨i, hi⟩).value ≠ EMPTY_TILE_VALUE →
          (applyMove s.tiles v).1.getD i default = s.tiles.get ⟨i, hi⟩)) ∧
      (clickStep s v).moveCount = s.moveCount + 1 ∧
      (clickStep s v).tiles = (applyMove s.tiles v).1 := by
  have hv0 : v ≠ EMPTY_TILE_VALUE := target_ne_empty_value hnd ht htv he hev hadj
  have h1 := applyMove_moved hnd ht htv he hev hadj
  have hlen : (applyMove s.tiles v).1.length = s.tiles.length := by
    rw [h1]
    exact List.length_map _ _
  refine ⟨by rw [h1], hlen, ?_, ?_, ?_⟩
  · intro i hi
    have hi2 : i < (List.map (moveMap v e.position t.position) s.tiles).length := by
      simpa using hi
    have hget : (applyMove s.tiles v).1.getD i default =
        moveMap v e.position t.position (s.tiles.get ⟨i, hi⟩) := by
      rw [h1]
      show (List.map (moveMap v e.position t.position) s.tiles).getD i default = _
      rw [List.getD_eq_getElem _ _ hi2]
      simp [List.getElem_map, List.get_eq_getElem]
    have hspec := moveMap_spec v e.position t.position (s.tiles.get ⟨i, hi⟩) hv0
    refine ⟨?_, ?_, ?_⟩
    · intro huv
      rw [hget, hspec.1 huv]
    · intro hu0
      rw [hget, hspec.2.1 hu0]
    · intro huv hu0
      rw [hget, hspec.2.2 huv hu0]
  · simp only [clickStep, hw, Bool.false_eq_true, if_false, h1, checkWin_moveCount]
  · simp only [clickStep, hw, Bool.false_eq_true, if_false, h1, checkWin_tiles]

/-- Claim C7: sliding a tile and then sliding it back restores the board:
if `v` is adjacent to the empty cell, applying the move engine to `v`, and
then to `v` again on the resulting board (where `v` now borders the empty
cell from the other side), yields the original board, with both calls
reporting `moved = true`. -/
theorem C7_move_involution (tiles : List Tile) (v : Nat) (t e : Tile)
    (hnd : (tiles.map Tile.value).Nodup) (ht : t ∈ tiles) (htv : t.value = v)
    (he : e ∈ tiles) (hev : e.value = EMPTY_TILE_VALUE)
    (hadj : SpecAdjacent t.position e.position) :
    (applyMove tiles v).2 = true ∧ applyMove (applyMove tiles v).1 v = (tiles, true) := by
  have hv0 : v ≠ EMPTY_TILE_VALUE := target_ne_empty_value hnd ht htv he hev hadj
  have h1 := applyMove_moved hnd ht htv he hev hadj
  have hmmt : moveMap v e.position t.position t = { t with position := e.position } :=
    (moveMap_spec v e.position t.position t hv0).1 htv
  have hmme : moveMap v e.position t.position e = { e with position := t.position } :=
    (moveMap_spec v e.position t.position e hv0).2.1 hev
  have hndmap : ((tiles.map (moveMap v e.position t.position)).map Tile.value).Nodup := by
    rw [List.map_map]
    have hcong : ∀ u ∈ tiles, (Tile.value ∘ moveMap v e.position t.position) u =
        Tile.value u := fun u _ => moveMap_value v e.position t.position u
    rw [List.map_congr_left hcong]
    exact hnd
  have ht' : ({ t with position := e.position } : Tile) ∈
      tiles.map (moveMap v e.position t.position) := by
    rw [← hmmt]
    exact List.mem_map_of_mem _ ht
  have he' : ({ e with position := t.position } : Tile) ∈
      tiles.map (moveMap v e.position t.position) := by
    rw [← hmme]
    exact List.mem_map_of_mem _ he
  have h2 : applyMove (tiles.map (moveMap v e.position t.position)) v =
      ((tiles.map (moveMap v e.position t.position)).map
        (moveMap v t.position e.position), true) :=
    applyMove_moved (t := { t with position := e.position })
      (e := { e with position := t.position }) hndmap ht'
      (show ({ t with position := e.position } : Tile).value = v from htv) he'
      (show ({ e with position := t.position } : Tile).value = EMPTY_TILE_VALUE from hev)
      (specAdjacent_symm hadj)
  have hpoint : ∀ u ∈ tiles,
      moveMap v t.position e.position (moveMap v e.position t.position u) = u := by
    intro u hu
    by_cases huv : u.value = v
    · have hut : u = t := tile_inj hnd hu ht (huv.trans htv.symm)
      subst hut
      rw [hmmt,
        (moveMap_spec v u.position e.position { u with position := e.position } hv0).1
          (show ({ u with position := e.position } : Tile).value = v from huv)]
    · by_cases hu0 : u.value = EMPTY_TILE_VALUE
      · have hue : u = e := tile_inj hnd hu he (hu0.trans hev.symm)
        subst hue
        rw [hmme,
          (moveMap_spec v t.position u.position { u with position := t.position } hv0).2.1
            (show ({ u with position := t.position } : Tile).value = EMPTY_TILE_VALUE
              from hu0)]
      · rw [(moveMap_spec v e.position t.position u hv0).2.2 huv hu0,
          (moveMap_spec v t.position e.position u hv0).2.2 huv hu0]
  refine ⟨by rw [h1], ?_⟩
  rw [h1]
  rw [h2, List.map_map]
  have : tiles.map (moveMap v t.position e.position ∘ moveMap v e.position t.position) =
      tiles.map id := List.map_congr_left (fun u hu => hpoint u hu)
  rw [this, List.map_id]

theorem map_getD_range (l : List Nat) :
    (List.range l.length).map (fun i => l.getD i 0) = l := by
  apply List.ext_getElem
  · simp
  · intro n h1 h2
    simp only [List.getElem_map, List.getElem_range]
    exact List.getD_eq_getElem l 0 h2

theorem mkBoard_map_value (values : List Nat) :
    (mkBoard values).map Tile.value = values := by
  unfold mkBoard
  rw [List.map_map]
  exact map_getD_range values

theorem mkBoard_map_position (values : List Nat) :
    (mkBoard values).map Tile.position = (List.range values.length).map cellOf := by
  unfold mkBoard
  rw [List.map_map]
  rfl

theorem mkBoard_inv {values : List Nat}
    (h : List.Perm values (List.range (GRID_SIZE * GRID_SIZE))) :
    BoardInv (mkBoard values) := by
  constructor
  · rw [mkBoard_map_value]
    exact h
  · rw [mkBoard_map_position, h.length_eq, List.length_range]

theorem boardInv_nodup_value {tiles : List Tile} (h : BoardInv tiles) :
    (tiles.map Tile.value).Nodup :=
  h.1.nodup_iff.mpr (List.nodup_range _)

theorem boardInv_nodup_position {tiles : List Tile} (h : BoardInv tiles) :
    (tiles.map Tile.position).Nodup := by
  apply h.2.nodup_iff.mpr
  have : ((List.range (GRID_SIZE * GRID_SIZE)).map cellOf).Nodup := by decide
  exact this

theorem applyMove_cases (tiles : List Tile) (v : Nat) :
    applyMove tiles v = (tiles, false) ∨
      ∃ clicked emptyTile : Tile,
        tiles.find? (fun t => t.value == v) = some clicked ∧
        tiles.find? (fun t => t.value == EMPTY_TILE_VALUE) = some emptyTile ∧
        isAdjacent clicked.position emptyTile.position = true ∧
        applyMove tiles v =
          (tiles.map (moveMap v emptyTile.position clicked.position), true) := by
  unfold applyMove
  cases hc : tiles.find? (fun t => t.value == v) with
  | none => exact Or.inl rfl
  | some clicked =>
    cases hemp : tiles.find? (fun t => t.value == EMPTY_TILE_VALUE) with
    | none => exact Or.inl rfl
    | some emptyTile =>
      by_cases hadj : isAdjacent clicked.position emptyTile.position = true
      · refine Or.inr ⟨clicked, emptyTile, rfl, rfl, hadj, ?_⟩
        simp only [hadj, if_true]
      · refine Or.inl ?_
        rw [Bool.not_eq_true] at hadj
        simp only [hadj, Bool.false_eq_true, if_false]

theorem applyMove_map_value (tiles : List Tile) (v : Nat) :
    (applyMove tiles v).1.map Tile.value = tiles.map Tile.value := by
  rcases applyMove_cases tiles v with h | ⟨c, e, _, _, _, h⟩
  · rw [h]
  · rw [h]
    simp only [List.map_map]
    exact List.map_congr_left (fun u _ => moveMap_value _ _ _ u)

theorem mem_value_of_find? {tiles : List Tile} {p : Tile → Bool} {c : Tile}
    (h : tiles.find? p = some c) : c ∈ tiles :=
  List.mem_of_find?_eq_some h

theorem applyMove_map_position_perm (tiles : List Tile) (v : Nat)
    (hnd : (tiles.map Tile.value).Nodup) :
    List.Perm ((applyMove tiles v).1.map Tile.position) (tiles.map Tile.position) := by
  rcases applyMove_cases tiles v with h | ⟨c, e, hc, hemp, hadj, h⟩
  · rw [h]
  · rw [h]
    have hcmem : c ∈ tiles := List.mem_of_find?_eq_some hc
    have hcv : c.value = v := by
      have := List.find?_some hc
      simpa using this
    have hemem : e ∈ tiles := List.mem_of_find?_eq_some hemp
    have hev : e.value = EMPTY_TILE_VALUE := by
      have := List.find?_some hemp
      simpa using this
    have hspecadj : SpecAdjacent c.position e.position := (isAdjacent_iff_spec _ _).mp hadj
    have hne : c ≠ e := ne_of_adjacent hspecadj
    have hv0 : v ≠ EMPTY_TILE_VALUE := target_ne_empty_value hnd hcmem hcv hemem hev hspecadj
    have hndt : tiles.Nodup := hnd.of_map
    have hee : e ∈ tiles.erase c := (List.Nodup.mem_erase_iff hndt).mpr ⟨hne.symm, hemem⟩
    have hperm : List.Perm tiles (c :: e :: (tiles.erase c).erase e) :=
      (List.perm_cons_erase hcmem).trans (List.Perm.cons c (List.perm_cons_erase hee))
    have hrest : ∀ u ∈ (tiles.erase c).erase e, moveMap v e.position c.position u = u := by
      intro u hu
      have hu1 : u ≠ e ∧ u ∈ tiles.erase c :=
        (List.Nodup.mem_erase_iff (hndt.erase c)).mp hu
      have hu2 : u ≠ c ∧ u ∈ tiles := (List.Nodup.mem_erase_iff hndt).mp hu1.2
      have huv : u.value ≠ v := by
        intro hv
        exact hu2.1 (tile_inj hnd hu2.2 hcmem (hv.trans hcv.symm))
      have hu0 : u.value ≠ EMPTY_TILE_VALUE := by
        intro hz
        exact hu1.1 (tile_inj hnd hu2.2 hemem (hz.trans hev.symm))
      exact (moveMap_spec v e.position c.position u hv0).2.2 huv hu0
    have hmmc : moveMap v e.position c.position c = { c with position := e.position } :=
      (moveMap_spec v e.position c.position c hv0).1 hcv
    have hmme : moveMap v e.position c.position e = { e with position := c.position } :=
      (moveMap_spec v e.position c.position e hv0).2.1 hev
    calc
      List.Perm ((tiles.map (moveMap v e.position c.position)).map Tile.position)
        (((c :: e :: (tiles.erase c).erase e).map
          (moveMap v e.position c.position)).map Tile.position) :=
        ((hperm.map (moveMap v e.position c.position)).map Tile.position)
      List.Perm _ (c.position :: e.position :: ((tiles.erase c).erase e).map Tile.position) := by
        simp only [List.map_cons, hmmc, hmme]
        rw [List.map_congr_left hrest, List.map_id']
        exact List.Perm.swap c.position e.position _
      List.Perm _ (tiles.map Tile.position) :=
        ((hperm.map Tile.position).symm)

/-- Claim C6: the Board bijection invariant — tile values are exactly
`{0, …, N²−1}` and tile positions exactly cover the `N×N` grid, each once —
is established by every terminating run of the `initializeGame` shuffle
loop and preserved by every call of the move engine (whether or not a move
happens). -/
theorem C6_bijection (rs : List ((i : Nat) → Fin (i + 1))) (out : List Nat)
    (tiles : List Tile) (v : Nat) :
    (initializeValues rs (List.range (GRID_SIZE * GRID_SIZE)) = some out →
      BoardInv (mkBoard out)) ∧
    (BoardInv tiles → BoardInv (applyMove tiles v).1) := by
  constructor
  · intro h
    exact mkBoard_inv (initializeValues_perm rs _ out h)
  · intro hinv
    constructor
    · rw [applyMove_map_value]
      exact hinv.1
    · exact (applyMove_map_position_perm tiles v (boardInv_nodup_value hinv)).trans hinv.2

theorem checkWin_spec (s : GameState) (hw : s.isWon = false) :
    ((checkWin s).isWon = true ↔
      s.tiles.length ≠ 0 ∧ hasWon s.tiles = true ∧ 0 < s.moveCount) ∧
      ((checkWin s).isWon = true → (checkWin s).isRunning = false) := by
  unfold checkWin
  split_ifs with h1 h2
  · have hlen : s.tiles.length = 0 := by simpa using h1
    constructor
    · rw [hw]
      simp [hlen]
    · intro h
      rw [hw] at h
      exact absurd h (by simp)
  · rw [Bool.and_eq_true, Bool.and_eq_true] at h2
    have hlen : s.tiles.length ≠ 0 := by simpa using h1
    constructor
    · simp only [true_iff]
      exact ⟨hlen, h2.1.1, by simpa using h2.2⟩
    · intro _
      rfl
  · constructor
    · rw [hw]
      constructor
      · intro h
        exact absurd h (by simp)
      · rintro ⟨hlen, hwon, hmc⟩
        apply absurd _ h2
        rw [Bool.and_eq_true, Bool.and_eq_true]
        exact ⟨⟨hwon, by simp [hw]⟩, by simpa using hmc⟩
    · intro h
      rw [hw] at h
      exact absurd h (by simp)

theorem reachable_won_moves {s : GameState} (h : Reachable s) :
    s.isWon = true → 0 < s.moveCount := by
  induction h with
  | init rs out _ =>
    intro hcon
    exact absurd hcon (by simp [mkState])
  | move s v _ ih =>
    by_cases hw : s.isWon = true
    · rw [show clickStep s v = s by simp [clickStep, hw]]
      exact ih
    · rw [Bool.not_eq_true] at hw
      rcases happ : applyMove s.tiles v with ⟨ts, mv⟩
      cases mv with
      | false =>
        rw [show clickStep s v = s by simp [clickStep, hw, happ]]
        exact ih
      | true =>
        have hcs : clickStep s v =
            checkWin
              { s with tiles := ts, moveCount := s.moveCount + 1, isRunning := true } := by
          simp [clickStep, hw, happ]
        rw [hcs, checkWin_moveCount]
        intro _
        exact Nat.succ_pos _
  | reset s _ _ =>
    intro hcon
    exact absurd hcon (by simp [resetStep])

/-- Claim C8: the won flag is set, and the clock stopped, exactly on a
transition where the board is fully placed and at least one move has been
made; a freshly shuffled board that happens to be solved is not flagged at
move count zero, so on every session state reachable between
`initializeGame` calls a set won flag implies a positive move count. -/
theorem C8_won_flag (s : GameState) (h : Reachable s) :
    (s.isWon = true → 0 < s.moveCount) ∧
      (s.isWon = false →
        ((checkWin s).isWon = true ↔
          s.tiles.length ≠ 0 ∧ hasWon s.tiles = true ∧ 0 < s.moveCount) ∧
        ((checkWin s).isWon = true → (checkWin s).isRunning = false)) :=
  ⟨reachable_won_moves h, fun hw => checkWin_spec s hw⟩

/-- Cross inversions between a prefix and a suffix: for each element of the
prefix, the number of smaller elements in the suffix. -/
def crossInv (C l : List Nat) : Nat :=
  (C.map (fun c => l.countP (fun y => decide (y < c)))).sum

theorem crossInv_cons (c : Nat) (C l : List Nat) :
    crossInv (c :: C) l = l.countP (fun y => decide (y < c)) + crossInv C l := by
  simp [crossInv]

theorem crossInv_perm (C : List Nat) {l l' : List Nat} (h : List.Perm l l') :
    crossInv C l = crossInv C l' := by
  unfold crossInv
  rw [List.map_congr_left (fun c _ => h.countP_eq (fun y => decide (y < c)))]

theorem countInv_append : ∀ (C l : List Nat),
    countInv (C ++ l) = countInv C + countInv l + crossInv C l := by
  intro C l
  induction C with
  | nil => simp [countInv, crossInv]
  | cons c C ih =>
    rw [List.cons_append, countInv_cons, ih, countInv_cons, crossInv_cons]
    rw [List.countP_append]
    omega

theorem countInv_swap_adj (A D : List Nat) (a b : Nat) :
    countInv (A ++ a :: b :: D) + (if a < b then 1 else 0) =
      countInv (A ++ b :: a :: D) + (if b < a then 1 else 0) := by
  rw [countInv_append, countInv_append]
  rw [crossInv_perm A (List.Perm.swap b a D)]
  rw [countInv_cons, countInv_cons, countInv_cons, countInv_cons]
  rw [List.countP_cons, List.countP_cons]
  simp only [decide_eq_true_eq]
  rcases Nat.lt_trichotomy a b with h | h | h
  · rw [if_pos h, if_neg (Nat.lt_asymm h)]
    omega
  · subst h
    rw [if_neg (Nat.lt_irrefl a)]
  · rw [if_neg (Nat.lt_asymm h), if_pos h]
    omega

theorem countInv_move (x : Nat) :
    ∀ (M : List Nat), (∀ m ∈ M, m ≠ x) → ∀ (A B : List Nat),
      (countInv (A ++ x :: (M ++ B)) + M.length) % 2 =
        countInv (A ++ (M ++ x :: B)) % 2 := by
  intro M
  induction M with
  | nil =>
    intro _ A B
    simp
  | cons m M ih =>
    intro hM A B
    have hmx : m ≠ x := hM m (List.mem_cons_self m M)
    have hM' : ∀ u ∈ M, u ≠ x := fun u hu => hM u (List.mem_cons_of_mem m hu)
    have hswap := countInv_swap_adj A (M ++ B) x m
    have hih := ih hM' (A ++ [m]) B
    have hre1 : A ++ m :: x :: (M ++ B) = (A ++ [m]) ++ (x :: (M ++ B)) := by simp
    rw [hre1] at hswap
    have hone : (if x < m then 1 else 0) + (if m < x then 1 else 0) = 1 := by
      rcases Nat.lt_trichotomy x m with h | h | h
      · rw [if_pos h, if_neg (Nat.lt_asymm h)]
      · exact absurd h.symm hmx
      · rw [if_neg (Nat.lt_asymm h), if_pos h]
    have hgoal1 : A ++ x :: ((m :: M) ++ B) = A ++ x :: m :: (M ++ B) := by simp
    have hgoal2 : A ++ ((m :: M) ++ x :: B) = (A ++ [m]) ++ (M ++ x :: B) := by simp
    rw [hgoal1, hgoal2, List.length_cons]
    omega

theorem filter_decomp_zero (A L : List Nat) :
    (A ++ 0 :: L).filter (fun val => decide (val ≠ EMPTY_TILE_VALUE)) =
      A.filter (fun val => decide (val ≠ EMPTY_TILE_VALUE)) ++
        L.filter (fun val => decide (val ≠ EMPTY_TILE_VALUE)) := by
  rw [List.filter_append, List.filter_cons]
  simp [EMPTY_TILE_VALUE]

theorem filter_decomp_cons {x : Nat} (hx : x ≠ 0) (A L : List Nat) :
    (A ++ x :: L).filter (fun val => decide (val ≠ EMPTY_TILE_VALUE)) =
      A.filter (fun val => decide (val ≠ EMPTY_TILE_VALUE)) ++
        x :: L.filter (fun val => decide (val ≠ EMPTY_TILE_VALUE)) := by
  rw [List.filter_append, List.filter_cons]
  simp [EMPTY_TILE_VALUE, hx]

theorem filter_eq_self_of_no_zero {M : List Nat} (hM : (0 : Nat) ∉ M) :
    M.filter (fun val => decide (val ≠ EMPTY_TILE_VALUE)) = M := by
  apply List.filter_eq_self.mpr
  intro a ha
  have : a ≠ 0 := fun h => hM (h ▸ ha)
  simp [EMPTY_TILE_VALUE, this]

theorem isSolvable_swap_horiz (A B : List Nat) (x : Nat) (hx : x ≠ 0)
    (hA : (0 : Nat) ∉ A)
    (hrow : A.length / GRID_SIZE = (A.length + 1) / GRID_SIZE) :
    isSolvable (A ++ x :: 0 :: B) = isSolvable (A ++ 0 :: x :: B) := by
  have hfil : (A ++ x :: 0 :: B).filter (fun val => decide (val ≠ EMPTY_TILE_VALUE)) =
      (A ++ 0 :: x :: B).filter (fun val => decide (val ≠ EMPTY_TILE_VALUE)) := by
    rw [filter_decomp_cons hx A (0 :: B), filter_decomp_zero A (x :: B)]
    rw [List.filter_cons, List.filter_cons]
    simp [EMPTY_TILE_VALUE, hx]
  have hnm : (0 : Nat) ∉ A ++ [x] := by
    intro hmem
    rcases List.mem_append.mp hmem with h | h
    · exact hA h
    · rw [List.mem_singleton] at h
      exact hx h.symm
  have hidx1 : (A ++ x :: 0 :: B).indexOf EMPTY_TILE_VALUE = A.length + 1 := by
    have hshape : A ++ x :: 0 :: B = (A ++ [x]) ++ 0 :: B := by simp
    rw [hshape, show EMPTY_TILE_VALUE = (0 : Nat) from rfl,
      List.indexOf_append_of_not_mem hnm, List.indexOf_cons_self]
    simp
  have hidx2 : (A ++ 0 :: x :: B).indexOf EMPTY_TILE_VALUE = A.length := by
    rw [show EMPTY_TILE_VALUE = (0 : Nat) from rfl,
      List.indexOf_append_of_not_mem hA, List.indexOf_cons_self]
    exact Nat.add_zero A.length
  simp only [isSolvable]
  rw [hfil, hidx1, hidx2, hrow]

theorem isSolvable_swap_vert (A M B : List Nat) (x : Nat) (hx : x ≠ 0)
    (hA : (0 : Nat) ∉ A) (hM : (0 : Nat) ∉ M) (hMx : ∀ m ∈ M, m ≠ x)
    (hMlen : M.length = 3) (hAlen : A.length ≤ 11) :
    isSolvable (A ++ x :: (M ++ 0 :: B)) = isSolvable (A ++ 0 :: (M ++ x :: B)) := by
  have hfil1 : (A ++ x :: (M ++ 0 :: B)).filter
        (fun val => decide (val ≠ EMPTY_TILE_VALUE)) =
      A.filter (fun val => decide (val ≠ EMPTY_TILE_VALUE)) ++
        x :: (M ++ B.filter (fun val => decide (val ≠ EMPTY_TILE_VALUE))) := by
    rw [filter_decomp_cons hx A (M ++ 0 :: B), filter_decomp_zero M B,
      filter_eq_self_of_no_zero hM]
  have hfil2 : (A ++ 0 :: (M ++ x :: B)).filter
        (fun val => decide (val ≠ EMPTY_TILE_VALUE)) =
      A.filter (fun val => decide (val ≠ EMPTY_TILE_VALUE)) ++
        (M ++ x :: B.filter (fun val => decide (val ≠ EMPTY_TILE_VALUE))) := by
    rw [filter_decomp_zero A (M ++ x :: B), filter_decomp_cons hx M B,
      filter_eq_self_of_no_zero hM]
  have hcnt := countInv_move x M hMx
    (A.filter (fun val => decide (val ≠ EMPTY_TILE_VALUE)))
    (B.filter (fun val => decide (val ≠ EMPTY_TILE_VALUE)))
  rw [hMlen] at hcnt
  have hnm : (0 : Nat) ∉ A ++ x :: M := by
    intro hmem
    rcases List.mem_append.mp hmem with h | h
    · exact hA h
    · rcases List.mem_cons.mp h with h | h
      · exact hx h.symm
      · exact hM h
  have hidx1 : (A ++ x :: (M ++ 0 :: B)).indexOf EMPTY_TILE_VALUE = A.length + 4 := by
    have hshape : A ++ x :: (M ++ 0 :: B) = (A ++ x :: M) ++ 0 :: B := by simp
    rw [hshape, show EMPTY_TILE_VALUE = (0 : Nat) from rfl,
      List.indexOf_append_of_not_mem hnm, List.indexOf_cons_self]
    simp [hMlen]
  have hidx2 : (A ++ 0 :: (M ++ x :: B)).indexOf EMPTY_TILE_VALUE = A.length := by
    rw [show EMPTY_TILE_VALUE = (0 : Nat) from rfl,
      List.indexOf_append_of_not_mem hA, List.indexOf_cons_self]
    exact Nat.add_zero A.length
  simp only [isSolvable]
  rw [hfil1, hfil2, hidx1, hidx2]
  rw [Bool.eq_iff_iff]
  simp only [Bool.or_eq_true, Bool.and_eq_true, beq_iff_eq, GRID_SIZE]
  omega

theorem list_decomp_two (w : List Nat) (k : Nat) (h : k + 1 < w.length) :
    w.take k ++ w.getD k 0 :: w.getD (k + 1) 0 :: w.drop (k + 1 + 1) = w := by
  rw [List.getD_eq_getElem w 0 (show k < w.length by omega),
    List.getD_eq_getElem w 0 h]
  rw [← List.drop_eq_getElem_cons h]
  rw [← List.drop_eq_getElem_cons (show k < w.length by omega)]
  exact List.take_append_drop k w

theorem list_decomp_five (w : List Nat) (k : Nat) (h : k + 1 + 3 < w.length) :
    w.take k ++ w.getD k 0 ::
      ((w.drop (k + 1)).take 3 ++ w.getD (k + 1 + 3) 0 :: w.drop (k + 1 + 3 + 1)) =
      w := by
  rw [List.getD_eq_getElem w 0 (show k < w.length by omega),
    List.getD_eq_getElem w 0 h]
  rw [← List.drop_eq_getElem_cons h]
  rw [← List.drop_drop 3 (k + 1) w]
  rw [List.take_append_drop 3 (w.drop (k + 1))]
  rw [← List.drop_eq_getElem_cons (show k < w.length by omega)]
  exact List.take_append_drop k w

theorem take_eq_of_pointwise {w w' : List Nat} (hl : w.length = 16)
    (hl' : w'.length = 16) (k : Nat)
    (h : ∀ i, i < k → w'.getD i 0 = w.getD i 0) : w'.take k = w.take k := by
  apply List.ext_getElem
  · simp [hl, hl']
  · intro n h1 h2
    rw [List.getElem_take, List.getElem_take]
    have hn : n < k := by
      rw [List.length_take] at h1
      omega
    have hh := h n hn
    have hn16 : n < 16 := by
      rw [List.length_take] at h1
      omega
    rw [List.getD_eq_getElem w' 0 (by omega), List.getD_eq_getElem w 0 (by omega)] at hh
    exact hh

theorem drop_eq_of_pointwise {w w' : List Nat} (hl : w.length = 16)
    (hl' : w'.length = 16) (k : Nat)
    (h : ∀ i, k ≤ i → i < 16 → w'.getD i 0 = w.getD i 0) :
    w'.drop k = w.drop k := by
  apply List.ext_getElem
  · simp [hl, hl']
  · intro n h1 h2
    rw [List.getElem_drop, List.getElem_drop]
    have hn : k + n < 16 := by
      rw [List.length_drop, hl'] at h1
      omega
    have hh := h (k + n) (by omega) hn
    rw [List.getD_eq_getElem w' 0 (by omega), List.getD_eq_getElem w 0 (by omega)] at hh
    exact hh

theorem take_drop_eq_of_pointwise {w w' : List Nat} (hl : w.length = 16)
    (hl' : w'.length = 16) (k m : Nat) (hkm : k + m ≤ 16)
    (h : ∀ i, k ≤ i → i < k + m → w'.getD i 0 = w.getD i 0) :
    (w'.drop k).take m = (w.drop k).take m := by
  apply List.ext_getElem
  · simp [hl, hl']
  · intro n h1 h2
    rw [List.getElem_take, List.getElem_take, List.getElem_drop, List.getElem_drop]
    have hn : n < m := by
      rw [List.length_take] at h1
      omega
    have hh := h (k + n) (by omega) (by omega)
    rw [List.getD_eq_getElem w' 0 (by omega), List.getD_eq_getElem w 0 (by omega)] at hh
    exact hh

theorem not_mem_take_of {w : List Nat} (hl : w.length = 16) (k : Nat) (z : Nat)
    (h : ∀ i, i < k → w.getD i 0 ≠ z) : z ∉ w.take k := by
  intro hmem
  rcases List.mem_iff_getElem.mp hmem with ⟨n, hn, he⟩
  rw [List.getElem_take] at he
  have hnk : n < k := by
    rw [List.length_take] at hn
    omega
  have hn16 : n < 16 := by
    rw [List.length_take, hl] at hn
    omega
  apply h n hnk
  rw [List.getD_eq_getElem w 0 (by omega)]
  exact he

theorem mem_take_drop {w : List Nat} {k m z : Nat} (hz : z ∈ (w.drop k).take m) :
    ∃ n, n < m ∧ k + n < w.length ∧ w.getD (k + n) 0 = z := by
  rcases List.mem_iff_getElem.mp hz with ⟨n, hn, he⟩
  rw [List.getElem_take, List.getElem_drop] at he
  rw [List.length_take, List.length_drop] at hn
  have h1 : n < m := by omega
  have h2 : k + n < w.length := by omega
  exact ⟨n, h1, h2, by rw [List.getD_eq_getElem w 0 h2]; exact he⟩

theorem isSolvable_swap_entries (w w' : List Nat) (k0 k1 : Nat)
    (hlen : w.length = 16) (hlen' : w'.length = 16)
    (hk0 : k0 < 16) (hk1 : k1 < 16)
    (h0 : w.getD k0 0 = 0)
    (hnz : ∀ i, i < 16 → i ≠ k0 → w.getD i 0 ≠ 0)
    (hnx : ∀ i, i < 16 → i ≠ k1 → w.getD i 0 ≠ w.getD k1 0)
    (hpt : ∀ i, i < 16 → w'.getD i 0 =
      if i = k0 then w.getD k1 0 else if i = k1 then 0 else w.getD i 0)
    (hadj : (k0 / 4 = k1 / 4 ∧ (k1 = k0 + 1 ∨ k0 = k1 + 1)) ∨
      (k1 = k0 + 4 ∨ k0 = k1 + 4)) :
    isSolvable w' = isSolvable w := by
  have hne : k1 ≠ k0 := by omega
  have hx : w.getD k1 0 ≠ 0 := hnz k1 hk1 hne
  have hptA : ∀ i, i < 16 → i ≠ k0 → i ≠ k1 → w'.getD i 0 = w.getD i 0 := by
    intro i hi h1 h2
    rw [hpt i hi, if_neg h1, if_neg h2]
  have hptk0 : w'.getD k0 0 = w.getD k1 0 := by
    rw [hpt k0 hk0, if_pos rfl]
  have hptk1 : w'.getD k1 0 = 0 := by
    rw [hpt k1 hk1, if_neg hne, if_pos rfl]
  rcases hadj with ⟨hrow, hcase | hcase⟩ | hcase | hcase
  · -- horizontal, empty cell to the left of the clicked tile
    subst hcase
    have hd2 := list_decomp_two w k0 (by omega)
    have hd2' := list_decomp_two w' k0 (by omega)
    have ht : w'.take k0 = w.take k0 :=
      take_eq_of_pointwise hlen hlen' k0
        (fun i hi => hptA i (by omega) (by omega) (by omega))
    have hd : w'.drop (k0 + 1 + 1) = w.drop (k0 + 1 + 1) :=
      drop_eq_of_pointwise hlen hlen' (k0 + 1 + 1)
        (fun i h1 h2 => hptA i h2 (by omega) (by omega))
    have hA0 : (0 : Nat) ∉ w.take k0 :=
      not_mem_take_of hlen k0 0 (fun i hi => hnz i (by omega) (by omega))
    have hrow' : (w.take k0).length / GRID_SIZE =
        ((w.take k0).length + 1) / GRID_SIZE := by
      rw [List.length_take, hlen]
      simp only [GRID_SIZE]
      omega
    rw [← hd2', ← hd2, ht, hd, hptk0, hptk1, h0]
    exact isSolvable_swap_horiz (w.take k0) (w.drop (k0 + 1 + 1)) (w.getD (k0 + 1) 0)
      hx hA0 hrow'
  · -- horizontal, empty cell to the right of the clicked tile
    subst hcase
    have hd2 := list_decomp_two w k1 (by omega)
    have hd2' := list_decomp_two w' k1 (by omega)
    have ht : w'.take k1 = w.take k1 :=
      take_eq_of_pointwise hlen hlen' k1
        (fun i hi => hptA i (by omega) (by omega) (by omega))
    have hd : w'.drop (k1 + 1 + 1) = w.drop (k1 + 1 + 1) :=
      drop_eq_of_pointwise hlen hlen' (k1 + 1 + 1)
        (fun i h1 h2 => hptA i h2 (by omega) (by omega))
    have hA0 : (0 : Nat) ∉ w.take k1 :=
      not_mem_take_of hlen k1 0 (fun i hi => hnz i (by omega) (by omega))
    have hrow' : (w.take k1).length / GRID_SIZE =
        ((w.take k1).length + 1) / GRID_SIZE := by
      rw [List.length_take, hlen]
      simp only [GRID_SIZE]
      omega
    have h0' : w.getD (k1 + 1) 0 = 0 := h0
    have hptk0' : w'.getD (k1 + 1) 0 = w.getD k1 0 := hptk0
    rw [← hd2', ← hd2, ht, hd, hptk0', hptk1, h0']
    exact (isSolvable_swap_horiz (w.take k1) (w.drop (k1 + 1 + 1)) (w.getD k1 0)
      hx hA0 hrow').symm
  · -- vertical, empty cell above the clicked tile
    subst hcase
    have hd5 := list_decomp_five w k0 (by omega)
    have hd5' := list_decomp_five w' k0 (by omega)
    have ht : w'.take k0 = w.take k0 :=
      take_eq_of_pointwise hlen hlen' k0
        (fun i hi => hptA i (by omega) (by omega) (by omega))
    have hM : (w'.drop (k0 + 1)).take 3 = (w.drop (k0 + 1)).take 3 :=
      take_drop_eq_of_pointwise hlen hlen' (k0 + 1) 3 (by omega)
        (fun i h1 h2 => hptA i (by omega) (by omega) (by omega))
    have hd : w'.drop (k0 + 1 + 3 + 1) = w.drop (k0 + 1 + 3 + 1) :=
      drop_eq_of_pointwise hlen hlen' (k0 + 1 + 3 + 1)
        (fun i h1 h2 => hptA i h2 (by omega) (by omega))
    have hA0 : (0 : Nat) ∉ w.take k0 :=
      not_mem_take_of hlen k0 0 (fun i hi => hnz i (by omega) (by omega))
    have hM0 : (0 : Nat) ∉ (w.drop (k0 + 1)).take 3 := by
      intro hmem
      rcases mem_take_drop hmem with ⟨n, hn3, hnl, hval⟩
      exact hnz (k0 + 1 + n) (by omega) (by omega) hval
    have hMx : ∀ m ∈ (w.drop (k0 + 1)).take 3, m ≠ w.getD (k0 + 1 + 3) 0 := by
      intro m hmem hcon
      rcases mem_take_drop hmem with ⟨n, hn3, hnl, hval⟩
      have : w.getD (k0 + 1 + n) 0 ≠ w.getD (k0 + 4) 0 :=
        hnx (k0 + 1 + n) (by omega) (by omega)
      rw [hval] at this
      exact this hcon
    have hMlen : ((w.drop (k0 + 1)).take 3).length = 3 := by
      rw [List.length_take, List.length_drop, hlen]
      exact min_eq_left (by omega)
    have hAlen : (w.take k0).length ≤ 11 := by
      rw [List.length_take, hlen]
      omega
    have h0' : w.getD k0 0 = 0 := h0
    have hxk : w.getD (k0 + 1 + 3) 0 ≠ 0 := hx
    have hptk0' : w'.getD k0 0 = w.getD (k0 + 1 + 3) 0 := hptk0
    have hptk1' : w'.getD (k0 + 1 + 3) 0 = 0 := hptk1
    rw [← hd5', ← hd5, ht, hM, hd, hptk0', hptk1', h0']
    exact isSolvable_swap_vert (w.take k0) ((w.drop (k0 + 1)).take 3)
      (w.drop (k0 + 1 + 3 + 1)) (w.getD (k0 + 1 + 3) 0) hxk hA0 hM0 hMx hMlen hAlen
  · -- vertical, empty cell below the clicked tile
    subst hcase
    have hd5 := list_decomp_five w k1 (by omega)
    have hd5' := list_decomp_five w' k1 (by omega)
    have ht : w'.take k1 = w.take k1 :=
      take_eq_of_pointwise hlen hlen' k1
        (fun i hi => hptA i (by omega) (by omega) (by omega))
    have hM : (w'.drop (k1 + 1)).take 3 = (w.drop (k1 + 1)).take 3 :=
      take_drop_eq_of_pointwise hlen hlen' (k1 + 1) 3 (by omega)
        (fun i h1 h2 => hptA i (by omega) (by omega) (by omega))
    have hd : w'.drop (k1 + 1 + 3 + 1) = w.drop (k1 + 1 + 3 + 1) :=
      drop_eq_of_pointwise hlen hlen' (k1 + 1 + 3 + 1)
        (fun i h1 h2 => hptA i h2 (by omega) (by omega))
    have hA0 : (0 : Nat) ∉ w.take k1 :=
      not_mem_take_of hlen k1 0 (fun i hi => hnz i (by omega) (by omega))
    have hM0 : (0 : Nat) ∉ (w.drop (k1 + 1)).take 3 := by
      intro hmem
      rcases mem_take_drop hmem with ⟨n, hn3, hnl, hval⟩
      exact hnz (k1 + 1 + n) (by omega) (by omega) hval
    have hMx : ∀ m ∈ (w.drop (k1 + 1)).take 3, m ≠ w.getD k1 0 := by
      intro m hmem hcon
      rcases mem_take_drop hmem with ⟨n, hn3, hnl, hval⟩
      have : w.getD (k1 + 1 + n) 0 ≠ w.getD k1 0 :=
        hnx (k1 + 1 + n) (by omega) (by omega)
      rw [hval] at this
      exact this hcon
    have hMlen : ((w.drop (k1 + 1)).take 3).length = 3 := by
      rw [List.length_take, List.length_drop, hlen]
      exact min_eq_left (by omega)
    have hAlen : (w.take k1).length ≤ 11 := by
      rw [List.length_take, hlen]
      omega
    have h0' : w.getD (k1 + 1 + 3) 0 = 0 := h0
    have hptk0' : w'.getD (k1 + 1 + 3) 0 = w.getD k1 0 := hptk0
    rw [← hd5', ← hd5, ht, hM, hd, hptk0', hptk1, h0']
    exact (isSolvable_swap_vert (w.take k1) ((w.drop (k1 + 1)).take 3)
      (w.drop (k1 + 1 + 3 + 1)) (w.getD k1 0) hx hA0 hM0 hMx hMlen hAlen).symm

/-- The linear (row-major) index of a position. -/
def posIdx (p : Position) : Nat := GRID_SIZE * p.row + p.col

theorem posIdx_lt {p : Position} (hr : p.row < GRID_SIZE) (hc : p.col < GRID_SIZE) :
    posIdx p < 16 := by
  simp only [posIdx, GRID_SIZE] at *
  omega

theorem cellOf_posIdx {p : Position} (hr : p.row < GRID_SIZE) (hc : p.col < GRID_SIZE) :
    cellOf (posIdx p) = p := by
  cases p with
  | mk r c =>
    simp only [posIdx, cellOf, GRID_SIZE, Position.mk.injEq] at *
    constructor <;> omega

theorem boardInv_pos_lt {tiles : List Tile} (hinv : BoardInv tiles) {u : Tile}
    (hu : u ∈ tiles) : u.position.row < GRID_SIZE ∧ u.position.col < GRID_SIZE := by
  have hmem : u.position ∈ (List.range (GRID_SIZE * GRID_SIZE)).map cellOf :=
    (hinv.2.mem_iff).mp (List.mem_map_of_mem Tile.position hu)
  rcases List.mem_map.mp hmem with ⟨i, hi, hcell⟩
  rw [List.mem_range] at hi
  rw [← hcell]
  simp only [cellOf, GRID_SIZE] at *
  omega

theorem exists_tile_at {tiles : List Tile} (hinv : BoardInv tiles) (i : Nat)
    (hi : i < 16) : ∃ u ∈ tiles, u.position = cellOf i := by
  have h16 : GRID_SIZE * GRID_SIZE = 16 := by decide
  have hmem : cellOf i ∈ (List.range (GRID_SIZE * GRID_SIZE)).map cellOf :=
    List.mem_map_of_mem cellOf (List.mem_range.mpr (by rw [h16]; exact hi))
  have hpos : cellOf i ∈ tiles.map Tile.position := hinv.2.mem_iff.mpr hmem
  rcases List.mem_map.mp hpos with ⟨u, hu, hupos⟩
  exact ⟨u, hu, hupos⟩

theorem find?_position {tiles : List Tile} (hndp : (tiles.map Tile.position).Nodup)
    {u : Tile} (hu : u ∈ tiles) {i : Nat} (hpos : u.position = cellOf i) :
    tiles.find? (fun t => t.position.row == i / GRID_SIZE &&
      t.position.col == i % GRID_SIZE) = some u := by
  apply find?_eq_some_of_unique _ _ _ hu
  · rw [hpos]
    simp [cellOf]
  · intro a ha hne
    by_contra hcon
    rw [Bool.not_eq_false, Bool.and_eq_true, beq_iff_eq, beq_iff_eq] at hcon
    have hap : a.position = cellOf i := by
      rw [show cellOf i = (⟨i / GRID_SIZE, i % GRID_SIZE⟩ : Position) from rfl]
      exact (position_eq_iff a.position (i / GRID_SIZE) (i % GRID_SIZE)).mpr
        ⟨hcon.1, hcon.2⟩
    exact hne (tile_inj hndp ha hu (hap.trans hpos.symm))

theorem linSeq_getD_eq (tiles : List Tile) (i : Nat) (hi : i < 16) :
    (linSeq tiles).getD i 0 =
      ((tiles.find? (fun t => t.position.row == i / GRID_SIZE &&
        t.position.col == i % GRID_SIZE)).map Tile.value).getD 0 := by
  have hlt : i < (linSeq tiles).length := by
    rw [linSeq_length]
    exact hi
  rw [List.getD_eq_getElem _ _ hlt]
  simp only [linSeq, List.getElem_map, List.getElem_range]

theorem linSeq_value_at {tiles : List Tile} (hinv : BoardInv tiles) {u : Tile}
    (hu : u ∈ tiles) {i : Nat} (hi : i < 16) (hpos : u.position = cellOf i) :
    (linSeq tiles).getD i 0 = u.value := by
  rw [linSeq_getD_eq tiles i hi,
    find?_position (boardInv_nodup_position hinv) hu hpos]
  rfl

/-- Claim C10: every successful move preserves solvability of the board's
row-major linear value sequence — a horizontal slide changes neither the
inversion count nor the empty row, and a vertical slide flips both the
inversion parity and the empty-row-from-bottom parity, so the acceptance of
`isSolvable` is unchanged. -/
theorem C10_solvable_preserved (tiles : List Tile) (v : Nat)
    (hinv : BoardInv tiles)
    (hsolv : isSolvable (linSeq tiles) = true)
    (hmv : (applyMove tiles v).2 = true) :
    isSolvable (linSeq (applyMove tiles v).1) = true := by
  rcases applyMove_cases tiles v with h | ⟨c, e, hc, hemp, hadjB, h⟩
  · rw [h] at hmv
    exact absurd hmv (by simp)
  · have hnd := boardInv_nodup_value hinv
    have hndp := boardInv_nodup_position hinv
    have hcmem : c ∈ tiles := List.mem_of_find?_eq_some hc
    have hcv : c.value = v := by
      have := List.find?_some hc
      simpa using this
    have hemem : e ∈ tiles := List.mem_of_find?_eq_some hemp
    have hev : e.value = EMPTY_TILE_VALUE := by
      have := List.find?_some hemp
      simpa using this
    have hspecadj : SpecAdjacent c.position e.position := (isAdjacent_iff_spec _ _).mp hadjB
    have hv0 : v ≠ EMPTY_TILE_VALUE := target_ne_empty_value hnd hcmem hcv hemem hev hspecadj
    have hclt := boardInv_pos_lt hinv hcmem
    have helt := boardInv_pos_lt hinv hemem
    have hinv0 : BoardInv (applyMove tiles v).1 :=
      ⟨by rw [applyMove_map_value]; exact hinv.1,
        (applyMove_map_position_perm tiles v hnd).trans hinv.2⟩
    rw [h] at hinv0
    have hk0lt : posIdx e.position < 16 := posIdx_lt helt.1 helt.2
    have hk1lt : posIdx c.position < 16 := posIdx_lt hclt.1 hclt.2
    have hcell0 : cellOf (posIdx e.position) = e.position := cellOf_posIdx helt.1 helt.2
    have hcell1 : cellOf (posIdx c.position) = c.position := cellOf_posIdx hclt.1 hclt.2
    have hposne : c.position ≠ e.position := by
      intro hcon
      exact specAdjacent_irrefl e.position (hcon ▸ hspecadj)
    have hkne : posIdx c.position ≠ posIdx e.position := by
      intro hcon
      apply hposne
      rw [← hcell1, ← hcell0, hcon]
    have hw0 : (linSeq tiles).getD (posIdx e.position) 0 = 0 := by
      rw [linSeq_value_at hinv hemem hk0lt hcell0.symm]
      exact hev
    have hwx : (linSeq tiles).getD (posIdx c.position) 0 = v := by
      rw [linSeq_value_at hinv hcmem hk1lt hcell1.symm]
      exact hcv
    have hnzw : ∀ i, i < 16 → i ≠ posIdx e.position → (linSeq tiles).getD i 0 ≠ 0 := by
      intro i hi hik
      rcases exists_tile_at hinv i hi with ⟨u, hu, hupos⟩
      rw [linSeq_value_at hinv hu hi hupos]
      intro hz
      have hue : u = e := tile_inj hnd hu hemem (by rw [hz]; exact hev.symm)
      apply hik
      have hcc : cellOf i = cellOf (posIdx e.position) := by
        rw [← hupos, hue, hcell0]
      exact cellOf_inj hi hk0lt hcc
    have hnxw : ∀ i, i < 16 → i ≠ posIdx c.position →
        (linSeq tiles).getD i 0 ≠ (linSeq tiles).getD (posIdx c.position) 0 := by
      intro i hi hik
      rw [hwx]
      rcases exists_tile_at hinv i hi with ⟨u, hu, hupos⟩
      rw [linSeq_value_at hinv hu hi hupos]
      intro hz
      have huc : u = c := tile_inj hnd hu hcmem (by rw [hz, hcv])
      apply hik
      have hcc : cellOf i = cellOf (posIdx c.position) := by
        rw [← hupos, huc, hcell1]
      exact cellOf_inj hi hk1lt hcc
    have hpt : ∀ i, i < 16 →
        (linSeq (tiles.map (moveMap v e.position c.position))).getD i 0 =
          if i = posIdx e.position then (linSeq tiles).getD (posIdx c.position) 0
          else if i = posIdx c.position then 0
          else (linSeq tiles).getD i 0 := by
      intro i hi
      by_cases h1 : i = posIdx e.position
      · rw [if_pos h1, hwx]
        have hmmc := (moveMap_spec v e.position c.position c hv0).1 hcv
        have hcmem2 : moveMap v e.position c.position c ∈
            tiles.map (moveMap v e.position c.position) := List.mem_map_of_mem _ hcmem
        rw [hmmc] at hcmem2
        have hcpos : ({ c with position := e.position } : Tile).position = cellOf i := by
          rw [h1, hcell0]
        rw [linSeq_value_at hinv0 hcmem2 hi hcpos]
        exact hcv
      · rw [if_neg h1]
        by_cases h2 : i = posIdx c.position
        · rw [if_pos h2]
          have hmme := (moveMap_spec v e.position c.position e hv0).2.1 hev
          have hemem2 : moveMap v e.position c.position e ∈
              tiles.map (moveMap v e.position c.position) := List.mem_map_of_mem _ hemem
          rw [hmme] at hemem2
          have hepos : ({ e with position := c.position } : Tile).position = cellOf i := by
            rw [h2, hcell1]
          rw [linSeq_value_at hinv0 hemem2 hi hepos]
          exact hev
        · rw [if_neg h2]
          rcases exists_tile_at hinv i hi with ⟨u, hu, hupos⟩
          have huc : u.value ≠ v := by
            intro hz
            have : u = c := tile_inj hnd hu hcmem (by rw [hz, hcv])
            apply h2
            have hcc : cellOf i = cellOf (posIdx c.position) := by
              rw [← hupos, this, hcell1]
            exact cellOf_inj hi hk1lt hcc
          have hue : u.value ≠ EMPTY_TILE_VALUE := by
            intro hz
            have : u = e := tile_inj hnd hu hemem (by rw [hz]; exact hev.symm)
            apply h1
            have hcc : cellOf i = cellOf (posIdx e.position) := by
              rw [← hupos, this, hcell0]
            exact cellOf_inj hi hk0lt hcc
          have hmmu := (moveMap_spec v e.position c.position u hv0).2.2 huc hue
          have humem2 : moveMap v e.position c.position u ∈
              tiles.map (moveMap v e.position c.position) := List.mem_map_of_mem _ hu
          rw [hmmu] at humem2
          rw [linSeq_value_at hinv0 humem2 hi hupos,
            linSeq_value_at hinv hu hi hupos]
    have hadjidx : (posIdx e.position / 4 = posIdx c.position / 4 ∧
        (posIdx c.position = posIdx e.position + 1 ∨
          posIdx e.position = posIdx c.position + 1)) ∨
        (posIdx c.position = posIdx e.position + 4 ∨
          posIdx e.position = posIdx c.position + 4) := by
      rcases hspecadj with ⟨hr, hcd⟩ | ⟨hcc, hrd⟩
      · refine Or.inl ?_
        simp only [posIdx, GRID_SIZE] at *
        omega
      · refine Or.inr ?_
        simp only [posIdx, GRID_SIZE] at *
        omega
    have hkey := isSolvable_swap_entries (linSeq tiles)
      (linSeq (tiles.map (moveMap v e.position c.position)))
      (posIdx e.position) (posIdx c.position) (linSeq_length tiles)
      (linSeq_length _) hk0lt hk1lt hw0 hnzw hnxw hpt hadjidx
    rw [h]
    show isSolvable (linSeq (tiles.map (moveMap v e.position c.position))) = true
    rw [hkey]
    exact hsolv

/-- A concrete random oracle: swap index 15 with index 0, then leave every
other index in place. -/
def oracleA : (i : Nat) → Fin (i + 1) :=
  fun i => if i = 15 then ⟨0, Nat.succ_pos i⟩ else Fin.last i

theorem C1_witness :
    isSolvable [1, 2, 3, 4, 5, 6, 7, 8, 9, 10, 11, 12, 13, 14, 15, 0] = true ↔
      ((GRID_SIZE -
          [1, 2, 3, 4, 5, 6, 7, 8, 9, 10, 11, 12, 13, 14, 15, 0].indexOf 0 / GRID_SIZE)
            % 2 = 0 ∧
        specInversions ([1, 2, 3, 4, 5, 6, 7, 8, 9, 10, 11, 12, 13, 14, 15, 0].filter
          (fun val => decide (val ≠ 0))) % 2 = 1) ∨
      ((GRID_SIZE -
          [1, 2, 3, 4, 5, 6, 7, 8, 9, 10, 11, 12, 13, 14, 15, 0].indexOf 0 / GRID_SIZE)
            % 2 = 1 ∧
        specInversions ([1, 2, 3, 4, 5, 6, 7, 8, 9, 10, 11, 12, 13, 14, 15, 0].filter
          (fun val => decide (val ≠ 0))) % 2 = 0) :=
  C1_isSolvable_iff _ (by decide)

theorem C2_witness :
    isSolvable (linSeq (mkBoard [15, 1, 2, 3, 4, 5, 6, 7, 8, 9, 10, 11, 12, 13, 14, 0]))
      = true :=
  C2_newGame_solvable [oracleA] _ (by decide)

theorem C3_witness :
    (hasWon (mkBoard [1, 2, 3, 4, 5, 6, 7, 8, 9, 10, 11, 12, 13, 14, 15, 0]) = true ↔
      ∀ t ∈ mkBoard [1, 2, 3, 4, 5, 6, 7, 8, 9, 10, 11, 12, 13, 14, 15, 0],
        Canonical t) ∧
      (∀ t ∈ mkBoard [1, 2, 3, 4, 5, 6, 7, 8, 9, 10, 11, 12, 13, 14, 15, 0],
        ¬ Canonical t →
          hasWon (mkBoard [1, 2, 3, 4, 5, 6, 7, 8, 9, 10, 11, 12, 13, 14, 15, 0]) =
            false) :=
  C3_hasWon_iff _ ⟨by decide, by decide⟩

theorem C4_witness :
    (isAdjacent (⟨1, 1⟩ : Position) ⟨0, 0⟩ = true ↔
      SpecAdjacent (⟨1, 1⟩ : Position) ⟨0, 0⟩) ∧
      applyMove (mkBoard (List.range 16)) 5 = (mkBoard (List.range 16), false) ∧
      (∀ s : GameState, s.tiles = mkBoard (List.range 16) → clickStep s 5 = s) :=
  C4_reject (mkBoard (List.range 16)) 5 ⟨5, 5, ⟨1, 1⟩⟩ ⟨0, 0, ⟨0, 0⟩⟩
    (by decide) (by decide) rfl (by decide) rfl
    (by
      intro hcon
      rcases hcon with ⟨h1, h2⟩ | ⟨h1, h2⟩ <;> exact absurd h1 (by decide))

theorem C5_witness :
    (applyMove (mkBoard (List.range 16)) 1).2 = true ∧
      (applyMove (mkBoard (List.range 16)) 1).1.length =
        (mkBoard (List.range 16)).length ∧
      (∀ (i : Nat) (hi : i < (mkBoard (List.range 16)).length),
        (((mkBoard (List.range 16)).get ⟨i, hi⟩).value = 1 →
          (applyMove (mkBoard (List.range 16)) 1).1.getD i default =
            { (mkBoard (List.range 16)).get ⟨i, hi⟩ with
                position := (⟨0, 0⟩ : Position) }) ∧
        (((mkBoard (List.range 16)).get ⟨i, hi⟩).value = EMPTY_TILE_VALUE →
          (applyMove (mkBoard (List.range 16)) 1).1.getD i default =
            { (mkBoard (List.range 16)).get ⟨i, hi⟩ with
                position := (⟨0, 1⟩ : Position) }) ∧
        (((mkBoard (List.range 16)).get ⟨i, hi⟩).value ≠ 1 →
          ((mkBoard (List.range 16)).get ⟨i, hi⟩).value ≠ EMPTY_TILE_VALUE →
          (applyMove (mkBoard (List.range 16)) 1).1.getD i default =
            (mkBoard (List.range 16)).get ⟨i, hi⟩)) ∧
      (clickStep (mkState (List.range 16)) 1).moveCount =
        (mkState (List.range 16)).moveCount + 1 ∧
      (clickStep (mkState (List.range 16)) 1).tiles =
        (applyMove (mkBoard (List.range 16)) 1).1 :=
  C5_move_effect (mkState (List.range 16)) 1 ⟨1, 1, ⟨0, 1⟩⟩ ⟨0, 0, ⟨0, 0⟩⟩
    rfl (by decide) (by decide) rfl (by decide) rfl (Or.inl ⟨rfl, by decide⟩)

theorem C6_witness :
    BoardInv (mkBoard [15, 1, 2, 3, 4, 5, 6, 7, 8, 9, 10, 11, 12, 13, 14, 0]) ∧
      BoardInv
        (applyMove (mkBoard [1, 2, 3, 4, 5, 6, 7, 8, 9, 10, 11, 12, 13, 14, 15, 0])
          15).1 :=
  ⟨(C6_bijection [oracleA] [15, 1, 2, 3, 4, 5, 6, 7, 8, 9, 10, 11, 12, 13, 14, 0]
      [] 0).1 (by decide),
    (C6_bijection [] []
      (mkBoard [1, 2, 3, 4, 5, 6, 7, 8, 9, 10, 11, 12, 13, 14, 15, 0]) 15).2
      ⟨by decide, by decide⟩⟩

theorem C7_witness :
    (applyMove (mkBoard [1, 2, 3, 4, 5, 6, 7, 8, 9, 10, 11, 12, 13, 14, 15, 0]) 15).2 =
      true ∧
      applyMove
        (applyMove (mkBoard [1, 2, 3, 4, 5, 6, 7, 8, 9, 10, 11, 12, 13, 14, 15, 0])
          15).1 15 =
        (mkBoard [1, 2, 3, 4, 5, 6, 7, 8, 9, 10, 11, 12, 13, 14, 15, 0], true) :=
  C7_move_involution _ 15 ⟨14, 15, ⟨3, 2⟩⟩ ⟨15, 0, ⟨3, 3⟩⟩
    (by decide) (by decide) rfl (by decide) rfl (Or.inl ⟨rfl, by decide⟩)

theorem C8_witness :
    ((mkState [15, 1, 2, 3, 4, 5, 6, 7, 8, 9, 10, 11, 12, 13, 14, 0]).isWon = true →
      0 < (mkState [15, 1, 2, 3, 4, 5, 6, 7, 8, 9, 10, 11, 12, 13, 14, 0]).moveCount) ∧
      ((mkState [15, 1, 2, 3, 4, 5, 6, 7, 8, 9, 10, 11, 12, 13, 14, 0]).isWon = false →
        ((checkWin (mkState [15, 1, 2, 3, 4, 5, 6, 7, 8, 9, 10, 11, 12, 13, 14, 0])).isWon
            = true ↔
          (mkState [15, 1, 2, 3, 4, 5, 6, 7, 8, 9, 10, 11, 12, 13, 14, 0]).tiles.length
              ≠ 0 ∧
            hasWon
              (mkState [15, 1, 2, 3, 4, 5, 6, 7, 8, 9, 10, 11, 12, 13, 14, 0]).tiles =
              true ∧
            0 < (mkState
              [15, 1, 2, 3, 4, 5, 6, 7, 8, 9, 10, 11, 12, 13, 14, 0]).moveCount) ∧
        ((checkWin (mkState [15, 1, 2, 3, 4, 5, 6, 7, 8, 9, 10, 11, 12, 13, 14, 0])).isWon
            = true →
          (checkWin
            (mkState [15, 1, 2, 3, 4, 5, 6, 7, 8, 9, 10, 11, 12, 13, 14, 0])).isRunning =
            false)) :=
  C8_won_flag _ (Reachable.init [oracleA] _ (by decide))

theorem C10_witness :
    isSolvable
      (linSeq
        (applyMove (mkBoard [1, 2, 3, 4, 5, 6, 7, 8, 9, 10, 11, 12, 13, 14, 15, 0])
          15).1) = true :=
  C10_solvable_preserved _ 15 ⟨by decide, by decide⟩ (by decide) (by decide)
